import Mathlib

/-!
Verification of the cache-coherence subsystem of the `inginious_fs_s3`
repository (`src/inginious_fs_s3/__init__.py`), a shallow embedding of
`S3CacheManager` (with its `CustomLRUCache`, a subclass of
`cachetools.LRUCache`) and of `S3FSProvider`.

Modelling conventions:
* Virtual paths (cache keys and S3-object keys) are "/"-separated strings
  in the source; a trailing "/" denotes a directory-like key.  We model a
  path as its list of components plus an `isDir` flag recording the
  trailing "/".  This is a bijection on the keys the program builds
  (non-empty components, no leading "/"); `os.path.split(p)[0]` of such a
  path corresponds to dropping the last component.
* Timestamps (`datetime` values) are `Nat`, compared with `≤`.
* File contents (`bytes`) are `List Nat`; `len(content)` is `List.length`.
* The cache's backing directory on disk is a pair of association lists
  (files with contents, and directories), rooted at `[]` (the cache path).
* Python dicts are association lists with in-place update; the
  `OrderedDict` recency order of `LRUCache` is a list, least recently
  used first.
* Each operation is a function `state → Except PyErr α × state`: a Python
  `raise` short-circuits but keeps all mutations made before the raise,
  exactly as exceptions interact with in-place mutation in the source.
* The semantics of `cachetools.Cache` / `cachetools.LRUCache`
  (requirement `cachetools >= 2.0.0`; the relevant behaviour of
  `Cache.__getitem__/__setitem__/__delitem__`, `LRUCache.popitem` and
  `MutableMapping.pop` is stable across the 2.x-5.x line) is embedded
  together with the overrides of `S3CacheManager.CustomLRUCache`.
-/

/-- Path components: the pieces of a "/"-separated key. -/
abbrev Comps := List String

/-- A virtual path: components plus whether the textual form ends in "/". -/
structure VPath where
  comps : Comps
  isDir : Bool
deriving DecidableEq, Repr

/-- A cache entry: the tuple `(timestamp, disk_path, weight)` stored in
`S3CacheManager._cache_data`.  `diskLoc` is relative to the cache root. -/
structure CEntry where
  ts : Nat
  diskLoc : Comps
  weight : Nat
deriving DecidableEq, Repr

/-- Bytes of a file. -/
abbrev Content := List Nat

/-- Python exceptions that the embedded code can raise.  `notFound` is
INGInious' `NotFoundException`; `clientError` is botocore's `ClientError`;
`fuelExhausted` is a model artefact for the (unreachable) exhaustion of
the eviction-loop bound, see `popLoop`. -/
inductive PyErr where
  | keyError
  | valueError
  | typeError
  | isADirectoryError
  | notADirectoryError
  | fileNotFoundError
  | clientError
  | notFound
  | fuelExhausted
deriving DecidableEq, Repr

/-- State of the cache subsystem: `S3CacheManager` together with its
`CustomLRUCache` bookkeeping (`cachetools` internals) and the on-disk
cache directory. -/
structure CSt where
  maxsize : Nat
  data : List (VPath × CEntry)
  order : List VPath
  currsize : Int
  dirs : List Comps
  files : List (Comps × Content)
deriving DecidableEq, Repr

/-- Result of a cache-layer operation. -/
abbrev CRes (α : Type) := Except PyErr α × CSt

section AssocList

variable {α β : Type} [DecidableEq α]

/-- Python dict lookup (first matching key). -/
def alGet : List (α × β) → α → Option β
  | [], _ => none
  | h :: t, k => if h.1 = k then some h.2 else alGet t k

/-- Python dict assignment: replace in place, else append. -/
def alSet : List (α × β) → α → β → List (α × β)
  | [], k, v => [(k, v)]
  | h :: t, k, v => if h.1 = k then (k, v) :: t else h :: alSet t k v

/-- Python dict deletion of the first matching key. -/
def alErase : List (α × β) → α → List (α × β)
  | [], _ => []
  | h :: t, k => if h.1 = k then t else h :: alErase t k

@[simp] theorem alGet_nil (k : α) : alGet ([] : List (α × β)) k = none := rfl

theorem alGet_alSet_self (l : List (α × β)) (k : α) (v : β) :
    alGet (alSet l k v) k = some v := by
  induction l with
  | nil => simp [alGet, alSet]
  | cons h t ih =>
    by_cases hk : h.1 = k
    · simp [alGet, alSet, hk]
    · simp [alGet, alSet, hk, ih]

theorem alGet_alSet_ne (l : List (α × β)) (k k' : α) (v : β) (h : k ≠ k') :
    alGet (alSet l k v) k' = alGet l k' := by
  induction l with
  | nil => simp [alGet, alSet, h]
  | cons hd t ih =>
    by_cases hk : hd.1 = k
    · simp [alGet, alSet, hk, h]
    · simp [alGet, alSet, hk, ih]

theorem alGet_alErase_ne (l : List (α × β)) (k k' : α) (h : k ≠ k') :
    alGet (alErase l k) k' = alGet l k' := by
  induction l with
  | nil => simp [alErase]
  | cons hd t ih =>
    by_cases hk : hd.1 = k
    · simp [alErase, alGet, hk, h]
    · simp [alErase, alGet, hk, ih]

end AssocList

/-- Total weight of all cache entries (directory markers store weight 0,
so this equals the total weight of the file entries). -/
def totalW (d : List (VPath × CEntry)) : Nat :=
  (d.map (fun kv => kv.2.weight)).sum

theorem totalW_alSet_none (d : List (VPath × CEntry)) (k : VPath) (v : CEntry)
    (h : alGet d k = none) :
    totalW (alSet d k v) = totalW d + v.weight := by
  induction d with
  | nil => simp [totalW, alSet]
  | cons hd t ih =>
    by_cases hk : hd.1 = k
    · simp [alGet, hk] at h
    · simp only [alGet, hk, if_neg hk] at h
      simp [alSet, hk, totalW] at ih ⊢
      rw [ih h]
      ring

theorem totalW_alSet_some (d : List (VPath × CEntry)) (k : VPath) (v old : CEntry)
    (h : alGet d k = some old) :
    totalW (alSet d k v) + old.weight = totalW d + v.weight := by
  induction d with
  | nil => simp [alGet] at h
  | cons hd t ih =>
    by_cases hk : hd.1 = k
    · simp [alGet, hk] at h
      subst h
      simp [alSet, hk, totalW]
      ring
    · simp only [alGet, hk, if_neg hk] at h
      simp [alSet, hk, totalW] at ih ⊢
      have := ih h
      omega

theorem totalW_alErase_some (d : List (VPath × CEntry)) (k : VPath) (old : CEntry)
    (h : alGet d k = some old) :
    totalW (alErase d k) + old.weight = totalW d := by
  induction d with
  | nil => simp [alGet] at h
  | cons hd t ih =>
    by_cases hk : hd.1 = k
    · simp [alGet, hk] at h
      subst h
      simp [alErase, hk, totalW]
      ring
    · simp only [alGet, hk, if_neg hk] at h
      simp [alErase, hk, totalW] at ih ⊢
      have := ih h
      omega

/-- The chain of proper ancestors of a component list, deepest first, as
produced by the `while cur_path != "": cur_path = os.path.split(cur_path)[0]`
walks in the source (each split drops the last component; the walk ends
after reaching the empty string, having also inspected it). -/
def ancChain (c : Comps) : List Comps :=
  ((List.range c.length).reverse).map (fun i => c.take i)

@[simp] theorem ancChain_nil : ancChain [] = [] := rfl

/-- Removal of the first occurrence of a key from the recency order
(the `OrderedDict` keys are unique, so this is dict deletion). -/
def ordErase : List VPath → VPath → List VPath
  | [], _ => []
  | x :: t, k => if x = k then t else x :: ordErase t k

/-- Embedding of `LRUCache._LRUCache__update`: move a key to the most-recently-used end
of the order (appending it if absent). -/
def updateOrd (k : VPath) (s : CSt) : CSt :=
  { s with order := ordErase s.order k ++ [k] }

/-- The ancestor walk shared by `CustomLRUCache.__getitem__` and
`__setitem__` ("also up parent folders"): touch each ancestor directory
key that is present in the cache. -/
def touchFold (s : CSt) : List Comps → CSt
  | [] => s
  | a :: t =>
    touchFold (if (alGet s.data ⟨a, true⟩).isSome then updateOrd ⟨a, true⟩ s else s) t

/-- Embedding of `CustomLRUCache.__getitem__` (src lines 20-32): the base
`LRUCache.__getitem__` (raw dict access, `KeyError` on a missing key,
move-to-end of the key itself) followed by the ancestor touch walk. -/
def customGetitem (k : VPath) (s : CSt) : CRes CEntry :=
  match alGet s.data k with
  | none => (.error .keyError, s)
  | some v => (.ok v, touchFold (updateOrd k s) (ancChain k.comps))

/-- Whether `os.listdir(loc)` is non-empty: some tracked file or directory lies
directly inside `loc`. -/
def hasChild (s : CSt) (loc : Comps) : Bool :=
  s.files.any (fun f => f.1 ≠ loc ∧ f.1.dropLast = loc) ||
    s.dirs.any (fun d => d ≠ loc ∧ d.dropLast = loc)

/-- Embedding of `os.unlink(loc)`: removes a file; raises `IsADirectoryError` on a
directory and `FileNotFoundError` on a missing path. -/
def unlink (loc : Comps) (s : CSt) : CRes Unit :=
  if (alGet s.files loc).isSome then
    (.ok (), { s with files := alErase s.files loc })
  else if loc ∈ s.dirs then (.error .isADirectoryError, s)
  else (.error .fileNotFoundError, s)

/-- Embedding of `LRUCache.__delitem__(key, Cache.__delitem__)`: `Cache.__delitem__`
pops the stored size (`KeyError` if absent), deletes the dict entry and
decrements `currsize`; then the key is removed from the recency order. -/
def lruDelitemRaw (k : VPath) (s : CSt) : CRes Unit :=
  match alGet s.data k with
  | none => (.error .keyError, s)
  | some v =>
    let s1 : CSt := { s with data := alErase s.data k,
                             currsize := s.currsize - (v.weight : Int) }
    if k ∈ s1.order then (.ok (), { s1 with order := ordErase s1.order k })
    else (.error .keyError, s1)

/-- The on-disk step of `CustomLRUCache.__delitem__`:
`if not path.endswith("/") or len(os.listdir(disk_path)) == 0:
os.unlink(disk_path)` (where `os.listdir` itself raises on a missing or
non-directory path). -/
def delitemUnlink (k : VPath) (v : CEntry) (s1 : CSt) : CRes Unit :=
  if k.isDir then
    if (alGet s1.files v.diskLoc).isSome then (.error .notADirectoryError, s1)
    else if v.diskLoc ∈ s1.dirs then
      if hasChild s1 v.diskLoc then (.ok (), s1) else unlink v.diskLoc s1
    else (.error .fileNotFoundError, s1)
  else unlink v.diskLoc s1

/-- Embedding of `CustomLRUCache.__delitem__` (src lines 48-62), fuelled by the length
of the key (the parent cascade strictly shortens the path, so
`k.comps.length + 1` fuel always suffices; fuel exhaustion is modelled as
an explicit, unreachable error).  Steps, in source order:
`(timestamp, disk_path, weight) = self[path]` (a full custom getitem);
`os.unlink(disk_path)` if the key is a file or its directory is empty;
strip the trailing "/" from `path`; recursively delete the parent
directory marker if cached; finally `super().__delitem__(path, ...)` with
the *stripped* path. -/
def customDelitemF : Nat → VPath → CSt → CRes Unit
  | 0, _, s => (.error .fuelExhausted, s)
  | fuel + 1, k, s =>
    match customGetitem k s with
    | (.error e, s') => (.error e, s')
    | (.ok v, s1) =>
      match delitemUnlink k v s1 with
      | (.error e, s2) => (.error e, s2)
      | (.ok _, s2) =>
        match (if k.comps.dropLast ≠ [] ∧ (alGet s2.data ⟨k.comps.dropLast, true⟩).isSome then
                 customDelitemF fuel ⟨k.comps.dropLast, true⟩ s2
               else (.ok (), s2)) with
        | (.error e, s3) => (.error e, s3)
        | (.ok _, s3) => lruDelitemRaw ⟨k.comps, false⟩ s3

/-- Embedding of `del cache[k]` on the custom LRU cache. -/
def customDelitem (k : VPath) (s : CSt) : CRes Unit :=
  customDelitemF (k.comps.length + 1) k s

/-- Embedding of `LRUCache.popitem`: take the least-recently-used key from the order
(`KeyError` when empty) and run `MutableMapping.pop` on it, which is a
custom `__getitem__` followed by a custom `__delitem__`. -/
def popitem (s : CSt) : CRes (VPath × CEntry) :=
  match s.order with
  | [] => (.error .keyError, s)
  | k :: _ =>
    match customGetitem k s with
    | (.error e, s') => (.error e, s')
    | (.ok v, s1) =>
      match customDelitem k s1 with
      | (.error e, s2) => (.error e, s2)
      | (.ok _, s2) => (.ok (k, v), s2)

/-- The eviction loop of `Cache.__setitem__`:
`while currsize + size > maxsize: popitem()`.  Every successful `popitem`
removes at least one dict entry, so `data.length + 1` fuel always
suffices; exhaustion is an explicit, unreachable error. -/
def popLoop (size : Nat) : Nat → CSt → CRes Unit
  | 0, s => (.error .fuelExhausted, s)
  | fuel + 1, s =>
    if s.currsize + (size : Int) ≤ (s.maxsize : Int) then (.ok (), s)
    else
      match popitem s with
      | (.error e, s') => (.error e, s')
      | (.ok _, s') => popLoop size fuel s'

/-- Does storing `size` bytes under `k` require the eviction loop
(`key not in self.__data or self.__size[key] < size`)? -/
def needsEvict (d : List (VPath × CEntry)) (k : VPath) (size : Nat) : Bool :=
  match alGet d k with
  | none => true
  | some old => old.weight < size

/-- The `diffsize` adjustment of `Cache.__setitem__`. -/
def diffSize (d : List (VPath × CEntry)) (k : VPath) (size : Nat) : Int :=
  match alGet d k with
  | some old => (size : Int) - (old.weight : Int)
  | none => (size : Int)

/-- The final store of `Cache.__setitem__`. -/
def setitemStore (k : VPath) (v : CEntry) (s1 : CSt) : CRes Unit :=
  (.ok (), { s1 with data := alSet s1.data k v,
                     currsize := s1.currsize + diffSize s1.data k v.weight })

/-- Embedding of `Cache.__setitem__` with `getsizeof = CustomLRUCache._computeFileSize`
(the third tuple component, i.e. the entry's weight): reject a value
larger than the whole cache, evict while needed when the key is new or
grew, then store the value and adjust `currsize` by the size difference. -/
def cacheSetitemRaw (k : VPath) (v : CEntry) (s : CSt) : CRes Unit :=
  if v.weight > s.maxsize then (.error .valueError, s)
  else
    match (if needsEvict s.data k v.weight then popLoop v.weight (s.data.length + 1) s
           else (.ok (), s)) with
    | (.error e, s1) => (.error e, s1)
    | (.ok _, s1) => setitemStore k v s1

/-- Embedding of `CustomLRUCache.__setitem__` (src lines 34-46): the base
`LRUCache.__setitem__` (raw store with eviction, then move-to-end of the
key) followed by the ancestor touch walk. -/
def customSetitem (k : VPath) (v : CEntry) (s : CSt) : CRes Unit :=
  match cacheSetitemRaw k v s with
  | (.error e, s') => (.error e, s')
  | (.ok _, s1) => (.ok (), touchFold (updateOrd k s1) (ancChain k.comps))

/-- Embedding of `os.makedirs(loc, exist_ok=True)` relative to the cache root: ensure
`loc` and all its ancestors exist as directories. -/
def addDirsAll (loc : Comps) (s : CSt) : CSt :=
  let newDirs :=
    (loc :: ancChain loc).foldl (fun d x => if x ∈ d then d else d ++ [x]) s.dirs
  { s with dirs := newDirs }

/-- Embedding of `S3CacheManager.get` (src lines 79-84): membership test (no touch),
then a real `__getitem__` (touching the key and its ancestors), returning
the disk location only when the entry is fresh enough. -/
def cmGet (p : VPath) (t : Nat) (s : CSt) : CRes (Option Comps) :=
  if (alGet s.data p).isSome then
    match customGetitem p s with
    | (.error e, s') => (.error e, s')
    | (.ok v, s1) => (.ok (if t ≤ v.ts then some v.diskLoc else none), s1)
  else (.ok none, s)

/-- Embedding of `S3CacheManager.put_file` (src lines 86-90): create the parent
directories on disk, write the content, then insert the entry
`(timestamp, disk_path, len(content))`. -/
def cmPutFile (p : VPath) (ts : Nat) (content : Content) (s : CSt) : CRes Unit :=
  let s1 := addDirsAll p.comps.dropLast s
  if p.comps ∈ s1.dirs then (.error .isADirectoryError, s1)
  else customSetitem p ⟨ts, p.comps, content.length⟩
    { s1 with files := alSet s1.files p.comps content }

/-- Embedding of `S3CacheManager.put_folder` (src lines 92-96): `os.path.split` of a
trailing-"/" disk path yields the directory itself, so `makedirs` creates
the marker's directory; then insert a zero-weight entry. -/
def cmPutFolder (p : VPath) (ts : Nat) (s : CSt) : CRes Unit :=
  let s1 := addDirsAll (if p.isDir then p.comps else p.comps.dropLast) s
  customSetitem p ⟨ts, p.comps, 0⟩ s1

/-- Embedding of `S3CacheManager.invalidate` (src lines 98-107), fuelled like
`customDelitemF`: delete a present entry (which cascades to parents),
otherwise recursively invalidate the parent directory key. -/
def cmInvalidateF : Nat → VPath → CSt → CRes Unit
  | 0, _, s => (.error .fuelExhausted, s)
  | fuel + 1, p, s =>
    if (alGet s.data p).isSome then customDelitem p s
    else
      let sub := p.comps.dropLast
      if sub = [] then (.ok (), s)
      else cmInvalidateF fuel ⟨sub, true⟩ s

/-- Embedding of `S3CacheManager.invalidate`. -/
def cmInvalidate (p : VPath) (s : CSt) : CRes Unit :=
  cmInvalidateF (p.comps.length + 1) p s

/-- Embedding of `S3CacheManager.__init__`: a fresh cache over a wiped directory. -/
def initCSt (msz : Nat) : CSt :=
  { maxsize := msz, data := [], order := [], currsize := 0,
    dirs := [[]], files := [] }

/-- A remote S3 object: its last-modified time and content bytes. -/
structure RObj where
  lastModified : Nat
  content : Content
deriving DecidableEq, Repr

/-- Observable interactions of `S3FSProvider` with the remote store and
the cache-invalidation hook (used to state ordering/counting claims). -/
inductive Ev where
  | remoteHead (p : VPath)
  | remoteGet (p : VPath)
  | remoteList (p : VPath)
  | remotePut (p : VPath)
  | remoteDelete (p : VPath)
  | cacheInvalidate (p : VPath)
deriving DecidableEq, Repr

/-- Full provider state: the cache plus the remote bucket (an association
list of keys to objects, `none` on lookup modelling the `ClientError`
raised by botocore for a missing key), keys whose upload fails, a queue of
`datetime.now()` readings, the event log, and the destination disk of
`copy_from` (an association list of files written outside the cache). -/
structure PSt where
  cache : CSt
  remote : List (VPath × RObj)
  putFail : List VPath
  clock : List Nat
  evs : List Ev
  dest : List (Comps × Content)
deriving DecidableEq, Repr

/-- Result of a provider-layer operation. -/
abbrev PRes (α : Type) := Except PyErr α × PSt

/-- Run a cache-layer operation inside the provider state. -/
def runC {α : Type} (m : CSt → CRes α) (s : PSt) : PRes α :=
  let r := m s.cache
  (r.1, { s with cache := r.2 })

/-- Append an event to the log. -/
def emitEv (e : Ev) (s : PSt) : PSt :=
  { s with evs := s.evs ++ [e] }

/-- Embedding of `datetime.now()`: pop the next reading from the clock queue (0 when
the queue is empty; all concrete scenarios provide enough readings). -/
def pyNow (s : PSt) : Nat × PSt :=
  match s.clock with
  | [] => (0, s)
  | n :: t => (n, { s with clock := t })

/-- Embedding of `obj.last_modified` (a HEAD request): `ClientError` when the key is
absent. -/
def remoteHeadLM (k : VPath) (s : PSt) : PRes Nat :=
  let s1 := emitEv (.remoteHead k) s
  match alGet s1.remote k with
  | some o => (.ok o.lastModified, s1)
  | none => (.error .clientError, s1)

/-- Embedding of `obj.get()["Body"].read()` (a GET request): `ClientError` when the
key is absent. -/
def remoteGetObj (k : VPath) (s : PSt) : PRes Content :=
  let s1 := emitEv (.remoteGet k) s
  match alGet s1.remote k with
  | some o => (.ok o.content, s1)
  | none => (.error .clientError, s1)

/-- Embedding of `bucket.upload_fileobj` / `bucket.put_object`: store the content
(`ClientError` for keys configured to fail).  The server-side timestamp of
an uploaded object is not observed by any claim and is modelled as 0. -/
def remotePutObj (k : VPath) (c : Content) (s : PSt) : PRes Unit :=
  let s1 := emitEv (.remotePut k) s
  if k ∈ s1.putFail then (.error .clientError, s1)
  else (.ok (), { s1 with remote := alSet s1.remote k ⟨0, c⟩ })

/-- Embedding of `bucket.Object(key).delete()`: S3 deletion succeeds whether or not
the key exists. -/
def remoteDeleteObj (k : VPath) (s : PSt) : PRes Unit :=
  let s1 := emitEv (.remoteDelete k) s
  (.ok (), { s1 with remote := alErase s1.remote k })

/-- Embedding of `except ClientError: raise NotFoundException()` around a block. -/
def catchCE {α : Type} (m : PSt → PRes α) (s : PSt) : PRes α :=
  match m s with
  | (.error e, s') => if e = .clientError then (.error .notFound, s') else (.error e, s')
  | (.ok a, s') => (.ok a, s')

/-- A bare `except: pass` around a block (used on the folder timestamp
probe in `copy_from`). -/
def catchAll {α : Type} (m : PSt → PRes α) (s : PSt) : PRes Unit :=
  match m s with
  | (.error _, s') => (.ok (), s')
  | (.ok _, s') => (.ok (), s')

/-- Embedding of `self.prefix + filepath` for a provider rooted at `pre` (the prefix
string is "" or ends in "/"): concatenating the prefix to the relative
path; the result of appending the empty relative path to a non-empty
prefix is the prefix string itself, which ends in "/". -/
def mkFull (pre : Comps) (p : VPath) : VPath :=
  if p.comps = [] ∧ p.isDir = false then ⟨pre, !pre.isEmpty⟩
  else ⟨pre ++ p.comps, p.isDir⟩

/-- Embedding of `open(disk_location, "rb").read()` on the cache disk. -/
def openRb (loc : Comps) (s : PSt) : PRes Content :=
  match alGet s.cache.files loc with
  | some c => (.ok c, s)
  | none =>
    if loc ∈ s.cache.dirs then (.error .isADirectoryError, s)
    else (.error .fileNotFoundError, s)

/-- Body of the `try` block of `S3FSProvider.get_fd` (src lines 204-214):
resolve the needed timestamp (the explicit one, else a HEAD), consult the
cache, on a miss GET the object, store it in the cache tagged with the
object's last-modified time, and re-consult the cache with the needed
timestamp; `open(None, "rb")` — the re-lookup returning `None` — is a
`TypeError`. -/
def getFdBody (full : VPath) (t : Option Nat) (s : PSt) : PRes Content :=
  match (match t with
         | some x => ((.ok x : Except PyErr Nat), s)
         | none => remoteHeadLM full s) with
  | (.error e, s1) => (.error e, s1)
  | (.ok needed, s1) =>
    match runC (cmGet full needed) s1 with
    | (.error e, s2) => (.error e, s2)
    | (.ok (some loc), s2) => openRb loc s2
    | (.ok none, s2) =>
      match remoteGetObj full s2 with
      | (.error e, s3) => (.error e, s3)
      | (.ok c, s3) =>
        match remoteHeadLM full s3 with
        | (.error e, s4) => (.error e, s4)
        | (.ok lm, s4) =>
          match runC (cmPutFile full lm c) s4 with
          | (.error e, s5) => (.error e, s5)
          | (.ok _, s5) =>
            match runC (cmGet full needed) s5 with
            | (.error e, s6) => (.error e, s6)
            | (.ok (some loc), s6) => openRb loc s6
            | (.ok none, s6) => (.error .typeError, s6)

/-- Embedding of `S3FSProvider.get_fd` (src lines 195-216): reject trailing-"/" paths
as `NotFound`, then run the body with `ClientError` normalised to
`NotFound`.  `S3FSProvider.get` returns the same bytes. -/
def getFd (pre : Comps) (p : VPath) (t : Option Nat) (s : PSt) : PRes Content :=
  let full := mkFull pre p
  if full.isDir then (.error .notFound, s)
  else catchCE (getFdBody full t) s

/-- The remote "touch" writes of `S3FSProvider._put_file` (src lines
172-178): put an empty object at every proper ancestor directory key,
deepest first. -/
def putParents : List Comps → PSt → PRes Unit
  | [], s => (.ok (), s)
  | a :: t, s =>
    match remotePutObj ⟨a, true⟩ [] s with
    | (.error e, s') => (.error e, s')
    | (.ok _, s') => putParents t s'

/-- Embedding of `S3FSProvider._put_file` (src lines 168-180): upload, then touch the
ancestor directory keys. -/
def putFileBody (full : VPath) (c : Content) (s : PSt) : PRes Unit :=
  match remotePutObj full c s with
  | (.error e, s1) => (.error e, s1)
  | (.ok _, s1) => putParents ((ancChain full.comps).filter (fun a => a ≠ [])) s1

/-- The body `putFileBody` with `ClientError` normalised to `NotFound`. -/
def putFileRemote (full : VPath) (c : Content) (s : PSt) : PRes Unit :=
  catchCE (putFileBody full c) s

/-- Embedding of `S3FSProvider.put` (src lines 182-193): reject trailing-"/" paths as
`NotFound`, then `_put_file`.  Note: `put` never touches the cache. -/
def putOp (pre : Comps) (p : VPath) (c : Content) (s : PSt) : PRes Unit :=
  let full := mkFull pre p
  if full.isDir then (.error .notFound, s)
  else putFileRemote full c s

/-- Is `k` strictly under the directory whose components are `c`
(i.e. the key string starts with the "/"-terminated form of `c`)? -/
def underDir (c : Comps) (k : VPath) : Bool :=
  c.isPrefixOf k.comps && decide (c.length < k.comps.length)

/-- The file keys listed by `from_subfolder(...).list(False, True, True)`:
a recursive listing filtered to non-"/" keys, as paths relative to the
folder. -/
def listFilesUnder (s : PSt) (c : Comps) : List VPath :=
  s.remote.filterMap (fun kv =>
    if underDir c kv.1 && !kv.1.isDir then some ⟨kv.1.comps.drop c.length, false⟩
    else none)

/-- The `try` block shared by both branches of `S3FSProvider.delete`
(src lines 256-260): invalidate the cache entry for the resolved key,
then delete the remote object. -/
def deleteCoreBody (full : VPath) (s : PSt) : PRes Unit :=
  match runC (cmInvalidate full) (emitEv (.cacheInvalidate full) s) with
  | (.error e, s2) => (.error e, s2)
  | (.ok _, s2) => remoteDeleteObj full s2

/-- The body `deleteCoreBody` with `ClientError` normalised to `NotFound`. -/
def deleteCore (full : VPath) (s : PSt) : PRes Unit :=
  catchCE (deleteCoreBody full) s

/-- The per-file loop of the folder branch of `S3FSProvider.delete`:
each listed file is deleted through `subfolder.delete(f)`, which (the
relative paths being plain file paths) is exactly `deleteCore` on the
composed key. -/
def deleteFiles (pfx : Comps) : List VPath → PSt → PRes Unit
  | [], s => (.ok (), s)
  | f :: t, s =>
    match deleteCore (mkFull pfx f) s with
    | (.error e, s') => (.error e, s')
    | (.ok _, s') => deleteFiles pfx t s'

/-- Embedding of `S3FSProvider.delete` (src lines 243-260): for a trailing-"/" (or
scope-root) key, list all contained files recursively and delete each,
then invalidate-and-delete the key itself; for a file key just the
latter. -/
def deleteOp (pre : Comps) (p : VPath) (s : PSt) : PRes Unit :=
  let full := mkFull pre p
  if full.isDir then
    let s1 := emitEv (.remoteList full) s
    let names := listFilesUnder s1 full.comps
    match deleteFiles full.comps names s1 with
    | (.error e, s2) => (.error e, s2)
    | (.ok _, s2) => deleteCore full s2
  else deleteCore full s

/-- Embedding of `S3FSProvider._recursive_overwrite` of a cached directory subtree
onto the destination disk: every cached file under `loc` is copied to the
mirrored destination path.  This walk is local (no remote interaction and
no cache mutation), which is all the claims observe of it. -/
def recursiveOverwrite (loc : Comps) (destDisk : Comps) (s : PSt) : PSt :=
  let newDest := s.cache.files.foldl
    (fun dst fc =>
      if loc.isPrefixOf fc.1 then alSet dst (destDisk ++ fc.1.drop loc.length) fc.2
      else dst) s.dest
  { s with dest := newDest }

/-- The remote objects listed by the reconciliation path of `copy_from`:
`(relative components, last_modified)` for each non-"/" key under the
folder. -/
def remoteFilesWithLM (s : PSt) (c : Comps) : List (Comps × Nat) :=
  s.remote.filterMap (fun kv =>
    if underDir c kv.1 && !kv.1.isDir then
      some (kv.1.comps.drop c.length, kv.2.lastModified)
    else none)

/-- The per-file loop of the reconciliation path of `copy_from` (src
lines 343-350): for each remote file, a cached `self.get(src + f, tmsp)`
and a write to the mirrored destination path. -/
def copyLoop (pre : Comps) (p : VPath) (destDisk : Comps) :
    List (Comps × Nat) → PSt → PRes Unit
  | [], s => (.ok (), s)
  | (f, tm) :: t, s =>
    match getFd pre ⟨p.comps ++ f, false⟩ (some tm) s with
    | (.error e, s') => (.error e, s')
    | (.ok c, s') =>
      copyLoop pre p destDisk t { s' with dest := alSet s'.dest (destDisk ++ f) c }

/-- The `all_folders` set of `copy_from` (src lines 341-350): the root
(the empty relative path) plus every proper ancestor of each listed file,
in first-insertion order (the Python `set` iteration order is not
specified; no claim depends on it). -/
def collectFolders (objs : List (Comps × Nat)) : List Comps :=
  objs.foldl (fun acc ft =>
    (ancChain ft.1).foldl (fun acc a => if a ∈ acc then acc else acc ++ [a]) acc) [[]]

/-- The marker-registration loop of `copy_from` (src lines 352-356):
`put_folder(fullpath + f)` for each collected folder, all timestamped
with the operation's start time. -/
def putFolders (full : VPath) (st : Nat) : List Comps → PSt → PRes Unit
  | [], s => (.ok (), s)
  | fo :: t, s =>
    match runC (cmPutFolder (if fo = [] then full else ⟨full.comps ++ fo, true⟩) st) s with
    | (.error e, s') => (.error e, s')
    | (.ok _, s') => putFolders full st t s'

/-- Embedding of `S3FSProvider.copy_from` (src lines 313-356).  For a file key: fetch
through the cache and write the bytes to the destination.  For a folder:
take `datetime.now()` as the needed timestamp (the remote folder
timestamp probe is attempted but its result is discarded, and any failure
ignored), consult the cache for a directory marker; on a hit copy the
cached subtree locally (the fast path); on a miss list the remote files,
fetch each through the cache with its own last-modified time, write it to
the destination, and finally register directory markers for the root and
every intermediate directory, timestamped with the operation's start
time. -/
def copyFrom (pre : Comps) (p : VPath) (destDisk : Comps) (s : PSt) : PRes Unit :=
  let full := mkFull pre p
  if full.comps ≠ [] ∧ full.isDir = false then
    match getFd pre p none s with
    | (.error e, s1) => (.error e, s1)
    | (.ok c, s1) => (.ok (), { s1 with dest := alSet s1.dest destDisk c })
  else
    let r0 := pyNow s
    let lm := r0.1
    let s1 := (catchAll (remoteHeadLM full) r0.2).2
    match runC (cmGet full lm) s1 with
    | (.error e, s2) => (.error e, s2)
    | (.ok folderLoc, s2) =>
      let r1 := pyNow s2
      let startTs := r1.1
      let s3 := r1.2
      match folderLoc with
      | some loc => (.ok (), recursiveOverwrite loc destDisk s3)
      | none =>
        let s4 := emitEv (.remoteList full) s3
        let objs := remoteFilesWithLM s4 full.comps
        match copyLoop pre p destDisk objs s4 with
        | (.error e, s5) => (.error e, s5)
        | (.ok _, s5) => putFolders full startTs (collectFolders objs) s5

/-- The events appended to the log by an operation that ran on `s` and
produced `s2`. -/
def evDelta (s s2 : PSt) : List Ev :=
  s2.evs.drop s.evs.length

/-- Is an event a remote list or a remote get? -/
def isListGetEv : Ev → Bool
  | .remoteList _ => true
  | .remoteGet _ => true
  | _ => false

/-! ## Recency-order characterisation of the ancestor touch walk -/

theorem ordErase_append_not_mem (B : List VPath) (A : List VPath) (k : VPath)
    (h : k ∉ A) : ordErase (A ++ B) k = A ++ ordErase B k := by
  induction A with
  | nil => simp
  | cons x t ih =>
    have hx : x ≠ k := by
      intro hxk
      exact h (by simp [hxk])
    have ht : k ∉ t := fun hm => h (by simp [hm])
    simp [ordErase, hx, ih ht]

/-- Unconditional sequence of `move_to_end` touches. -/
def touchKeys (s : CSt) : List VPath → CSt
  | [] => s
  | k :: t => touchKeys (updateOrd k s) t

@[simp] theorem updateOrd_data (k : VPath) (s : CSt) :
    (updateOrd k s).data = s.data := rfl

theorem touchFold_data (l : List Comps) (s : CSt) :
    (touchFold s l).data = s.data := by
  induction l generalizing s with
  | nil => rfl
  | cons a t ih =>
    simp only [touchFold]
    split <;> simp [ih]

theorem touchKeys_data (ks : List VPath) (s : CSt) :
    (touchKeys s ks).data = s.data := by
  induction ks generalizing s with
  | nil => rfl
  | cons k t ih => simp [touchKeys, ih]

/-- The ancestor directory-marker keys of a path that are present in the
cache, in the order the walk touches them (immediate parent first, the
root last). -/
def presentMarkers (s : CSt) (c : Comps) : List VPath :=
  ((ancChain c).filter (fun a => (alGet s.data ⟨a, true⟩).isSome)).map
    (fun a => (⟨a, true⟩ : VPath))

theorem touchFold_eq_touchKeys (l : List Comps) (s : CSt) :
    touchFold s l =
      touchKeys s ((l.filter (fun a => (alGet s.data ⟨a, true⟩).isSome)).map
        (fun a => (⟨a, true⟩ : VPath))) := by
  induction l generalizing s with
  | nil => rfl
  | cons a t ih =>
    by_cases hp : (alGet s.data ⟨a, true⟩).isSome
    · simp only [touchFold, hp, if_pos, List.filter_cons_of_pos, List.map_cons, touchKeys]
      rw [ih]
      simp [updateOrd_data]
    · simp only [touchFold, hp, List.filter_cons_of_neg]
      rw [ih]
      simp [hp]

/-- Folding `ordErase` of keys over an order list. -/
def multiErase (o : List VPath) (ks : List VPath) : List VPath :=
  ks.foldl ordErase o

theorem multiErase_append_singleton (ks : List VPath) (A : List VPath) (k : VPath)
    (h : k ∉ ks) : multiErase (A ++ [k]) ks = multiErase A ks ++ [k] := by
  induction ks generalizing A with
  | nil => rfl
  | cons x t ih =>
    have hx : x ≠ k := fun hxk => h (by simp [hxk])
    have ht : k ∉ t := fun hm => h (by simp [hm])
    have step : ordErase (A ++ [k]) x = ordErase A x ++ [k] := by
      induction A with
      | nil => simp [ordErase, Ne.symm hx]
      | cons y u ihA =>
        by_cases hy : y = x
        · simp [ordErase, hy]
        · simp [ordErase, hy, ihA]
    simp only [multiErase, List.foldl_cons]
    rw [step]
    exact ih _ ht

theorem touchKeys_order (ks : List VPath) (s : CSt) (h : ks.Nodup) :
    (touchKeys s ks).order = multiErase s.order ks ++ ks := by
  induction ks generalizing s with
  | nil => simp [touchKeys, multiErase]
  | cons k t ih =>
    have hkt : k ∉ t := (List.nodup_cons.mp h).1
    have ht : t.Nodup := (List.nodup_cons.mp h).2
    simp only [touchKeys]
    rw [ih _ ht]
    have : (updateOrd k s).order = ordErase s.order k ++ [k] := rfl
    rw [this, multiErase_append_singleton t _ k hkt]
    simp [multiErase, List.foldl_cons]

theorem length_of_mem_ancChain (c : Comps) (a : Comps) (h : a ∈ ancChain c) :
    a.length < c.length := by
  simp only [ancChain, List.mem_map, List.mem_reverse, List.mem_range] at h
  obtain ⟨i, hi, rfl⟩ := h
  simp [List.length_take]
  omega

theorem nodup_ancChain (c : Comps) : (ancChain c).Nodup := by
  apply List.Nodup.map_on
  · intro x hx y hy hxy
    simp only [List.mem_reverse, List.mem_range] at hx hy
    have hxl : (c.take x).length = x := by simp [List.length_take]; omega
    have hyl : (c.take y).length = y := by simp [List.length_take]; omega
    rw [← hxl, ← hyl, hxy]
  · exact List.nodup_reverse.mpr (List.nodup_range _)

theorem nodup_key_markers (s : CSt) (p : VPath) :
    (p :: presentMarkers s p.comps).Nodup := by
  rw [List.nodup_cons]
  constructor
  · intro hmem
    simp only [presentMarkers, List.mem_map, List.mem_filter] at hmem
    obtain ⟨a, ⟨ha, _⟩, hk⟩ := hmem
    have hlt := length_of_mem_ancChain _ _ ha
    have hc : a = p.comps := congrArg VPath.comps hk
    have hl : a.length = p.comps.length := by rw [hc]
    omega
  · apply List.Nodup.map
    · intro x y hxy
      exact congrArg VPath.comps hxy
    · exact List.Nodup.filter _ (nodup_ancChain _)

/-- The override `CustomLRUCache.__getitem__` leaves the accessed key followed by its
present ancestor markers (parent first, root last) as the most recent
tail of the recency order. -/
theorem customGetitem_order (s : CSt) (k : VPath) (v : CEntry)
    (h : alGet s.data k = some v) :
    ((customGetitem k s).2).order =
      multiErase s.order (k :: presentMarkers s k.comps) ++
        (k :: presentMarkers s k.comps) := by
  have hstep : (customGetitem k s).2 = touchKeys s (k :: presentMarkers s k.comps) := by
    simp only [customGetitem, h]
    rw [touchFold_eq_touchKeys]
    simp only [touchKeys, updateOrd_data]
    rfl
  rw [hstep, touchKeys_order _ _ (nodup_key_markers s k)]

/-- The operation `S3CacheManager.get` on a present key leaves the key and its present
ancestor markers as the most recent tail of the order, whatever the
needed timestamp. -/
theorem cmGet_suffix (s : CSt) (p : VPath) (t : Nat) (v : CEntry)
    (h : alGet s.data p = some v) :
    (p :: presentMarkers s p.comps) <:+ ((cmGet p t s).2).order := by
  have hs : (alGet s.data p).isSome := by simp [h]
  simp only [cmGet, hs, if_pos]
  simp only [customGetitem, h]
  have horder := customGetitem_order s p v h
  simp only [customGetitem, h] at horder
  exact ⟨multiErase s.order (p :: presentMarkers s p.comps), horder.symm⟩

/-! ## Directory markers survive every insertion (eviction included) -/

/-- A key is present in the cache dict. -/
def keyLive (s : CSt) (m : VPath) : Prop := (alGet s.data m).isSome

theorem keyLive_touchFold (l : List Comps) (s : CSt) (m : VPath)
    (h : keyLive s m) : keyLive (touchFold s l) m := by
  unfold keyLive
  rw [touchFold_data]
  exact h

theorem keyLive_customGetitem (k : VPath) (s : CSt) (m : VPath)
    (h : keyLive s m) : keyLive ((customGetitem k s).2) m := by
  unfold customGetitem
  cases hg : alGet s.data k with
  | none => exact h
  | some v =>
    unfold keyLive
    rw [touchFold_data]
    exact h

theorem keyLive_unlink (loc : Comps) (s : CSt) (m : VPath)
    (h : keyLive s m) : keyLive ((unlink loc s).2) m := by
  unfold unlink
  split <;> try exact h
  split <;> exact h

theorem keyLive_lruDelitemRaw_dir (k : VPath) (s : CSt) (m : VPath)
    (hm : m.isDir = true) (hk : k.isDir = false)
    (h : keyLive s m) : keyLive ((lruDelitemRaw k s).2) m := by
  have hne : k ≠ m := by
    intro he
    rw [he, hm] at hk
    cases hk
  unfold lruDelitemRaw
  cases hg : alGet s.data k with
  | none => exact h
  | some v =>
    unfold keyLive at h ⊢
    simp only
    split <;> simpa [alGet_alErase_ne s.data k m hne] using h

theorem keyLive_delitemUnlink (k : VPath) (v : CEntry) (s1 : CSt) (m : VPath)
    (h : keyLive s1 m) : keyLive ((delitemUnlink k v s1).2) m := by
  unfold delitemUnlink
  split
  · split
    · exact h
    · split
      · split
        · exact h
        · exact keyLive_unlink _ _ _ h
      · exact h
  · exact keyLive_unlink _ _ _ h

theorem keyLive_customDelitemF (fuel : Nat) (k : VPath) (s : CSt) (m : VPath)
    (hm : m.isDir = true) (h : keyLive s m) :
    keyLive ((customDelitemF fuel k s).2) m := by
  induction fuel generalizing k s with
  | zero => exact h
  | succ n ih =>
    unfold customDelitemF
    cases hg : customGetitem k s with
    | mk r1 s1 =>
      have h1 : keyLive s1 m := by
        have := keyLive_customGetitem k s m h
        rw [hg] at this
        exact this
      cases r1 with
      | error e => exact h1
      | ok v =>
        dsimp only
        cases h2g : delitemUnlink k v s1 with
        | mk r2 s2 =>
          have h2 : keyLive s2 m := by
            have := keyLive_delitemUnlink k v s1 m h1
            rw [h2g] at this
            exact this
          cases r2 with
          | error e => exact h2
          | ok u =>
            dsimp only
            by_cases hc : k.comps.dropLast ≠ [] ∧
                (alGet s2.data ⟨k.comps.dropLast, true⟩).isSome = true
            · rw [if_pos hc]
              cases h3g : customDelitemF n ⟨k.comps.dropLast, true⟩ s2 with
              | mk r3 s3 =>
                have h3 : keyLive s3 m := by
                  have := ih ⟨k.comps.dropLast, true⟩ s2 h2
                  rw [h3g] at this
                  exact this
                cases r3 with
                | error e => exact h3
                | ok u2 =>
                  exact keyLive_lruDelitemRaw_dir ⟨k.comps, false⟩ s3 m hm rfl h3
            · rw [if_neg hc]
              exact keyLive_lruDelitemRaw_dir ⟨k.comps, false⟩ s2 m hm rfl h2

theorem keyLive_popitem (s : CSt) (m : VPath)
    (hm : m.isDir = true) (h : keyLive s m) : keyLive ((popitem s).2) m := by
  unfold popitem
  cases s.order with
  | nil => exact h
  | cons k t =>
    dsimp only
    cases hg : customGetitem k s with
    | mk r1 s1 =>
      have h1 : keyLive s1 m := by
        have := keyLive_customGetitem k s m h
        rw [hg] at this
        exact this
      cases r1 with
      | error e => exact h1
      | ok v =>
        dsimp only
        cases hd : customDelitem k s1 with
        | mk r2 s2 =>
          have h2 : keyLive s2 m := by
            have := keyLive_customDelitemF (k.comps.length + 1) k s1 m hm h1
            unfold customDelitem at hd
            rw [hd] at this
            exact this
          cases r2 with
          | error e => exact h2
          | ok u => exact h2

theorem keyLive_popLoop (size fuel : Nat) (s : CSt) (m : VPath)
    (hm : m.isDir = true) (h : keyLive s m) : keyLive ((popLoop size fuel s).2) m := by
  induction fuel generalizing s with
  | zero => exact h
  | succ n ih =>
    unfold popLoop
    split
    · exact h
    · cases hp : popitem s with
      | mk r1 s1 =>
        have h1 : keyLive s1 m := by
          have := keyLive_popitem s m hm h
          rw [hp] at this
          exact this
        cases r1 with
        | error e => exact h1
        | ok v => exact ih _ h1

theorem keyLive_alSet (d : List (VPath × CEntry)) (k m : VPath) (v : CEntry)
    (h : (alGet d m).isSome) : (alGet (alSet d k v) m).isSome := by
  by_cases hk : k = m
  · rw [hk, alGet_alSet_self]
    rfl
  · rw [alGet_alSet_ne _ _ _ _ hk]
    exact h

theorem keyLive_setitemStore (k : VPath) (v : CEntry) (s1 : CSt) (m : VPath)
    (h : keyLive s1 m) : keyLive ((setitemStore k v s1).2) m :=
  keyLive_alSet s1.data k m v h

theorem keyLive_cacheSetitemRaw (k : VPath) (v : CEntry) (s : CSt) (m : VPath)
    (hm : m.isDir = true) (h : keyLive s m) :
    keyLive ((cacheSetitemRaw k v s).2) m := by
  unfold cacheSetitemRaw
  split
  · exact h
  · by_cases hev : needsEvict s.data k v.weight = true
    · rw [if_pos hev]
      cases hp : popLoop v.weight (s.data.length + 1) s with
      | mk r1 s1 =>
        have h1 : keyLive s1 m := by
          have := keyLive_popLoop v.weight (s.data.length + 1) s m hm h
          rw [hp] at this
          exact this
        cases r1 with
        | error e => exact h1
        | ok u => exact keyLive_setitemStore k v s1 m h1
    · rw [if_neg hev]
      exact keyLive_setitemStore k v s m h

theorem keyLive_customSetitem (k : VPath) (v : CEntry) (s : CSt) (m : VPath)
    (hm : m.isDir = true) (h : keyLive s m) :
    keyLive ((customSetitem k v s).2) m := by
  unfold customSetitem
  cases hs : cacheSetitemRaw k v s with
  | mk r1 s1 =>
    have h1 : keyLive s1 m := by
      have := keyLive_cacheSetitemRaw k v s m hm h
      rw [hs] at this
      exact this
    cases r1 with
    | error e => exact h1
    | ok u =>
      unfold keyLive
      rw [touchFold_data]
      exact h1

theorem keyLive_addDirsAll (loc : Comps) (s : CSt) (m : VPath)
    (h : keyLive s m) : keyLive (addDirsAll loc s) m := h

theorem keyLive_cmPutFile (p : VPath) (ts : Nat) (c : Content) (s : CSt) (m : VPath)
    (hm : m.isDir = true) (h : keyLive s m) :
    keyLive ((cmPutFile p ts c s).2) m := by
  unfold cmPutFile
  dsimp only
  split
  · exact h
  · exact keyLive_customSetitem _ _ _ _ hm h

theorem keyLive_cmPutFolder (p : VPath) (ts : Nat) (s : CSt) (m : VPath)
    (hm : m.isDir = true) (h : keyLive s m) :
    keyLive ((cmPutFolder p ts s).2) m := by
  unfold cmPutFolder
  dsimp only
  exact keyLive_customSetitem _ _ _ _ hm h

/-- One insertion into the cache, as performed by `put_file`/`put_folder`. -/
inductive CacheIns where
  | file (p : VPath) (ts : Nat) (c : Content)
  | folder (p : VPath) (ts : Nat)
deriving DecidableEq, Repr

/-- Apply one insertion (keeping the state even when the call raises). -/
def applyIns (i : CacheIns) (s : CSt) : CSt :=
  match i with
  | .file p ts c => (cmPutFile p ts c s).2
  | .folder p ts => (cmPutFolder p ts s).2

/-- Apply a sequence of insertions. -/
def runInss (l : List CacheIns) (s : CSt) : CSt :=
  l.foldl (fun s i => applyIns i s) s

theorem keyLive_applyIns (i : CacheIns) (s : CSt) (m : VPath)
    (hm : m.isDir = true) (h : keyLive s m) : keyLive (applyIns i s) m := by
  cases i with
  | file p ts c => exact keyLive_cmPutFile p ts c s m hm h
  | folder p ts => exact keyLive_cmPutFolder p ts s m hm h

/-! ## The cachetools size accounting and the capacity bound -/

/-- The bookkeeping invariant of `cachetools.Cache` under a fixed
configured maximum: `currsize` equals the summed stored sizes, and the
total never exceeds the maximum. -/
def invC (msz : Nat) (s : CSt) : Prop :=
  s.maxsize = msz ∧ s.currsize = (totalW s.data : Int) ∧ totalW s.data ≤ msz

theorem alGet_weight_le_totalW (d : List (VPath × CEntry)) (k : VPath) (v : CEntry)
    (h : alGet d k = some v) : v.weight ≤ totalW d := by
  have := totalW_alErase_some d k v h
  omega

theorem invC_touchFold (msz : Nat) (l : List Comps) (s : CSt)
    (h : invC msz s) : invC msz (touchFold s l) := by
  induction l generalizing s with
  | nil => exact h
  | cons a t ih =>
    simp only [touchFold]
    split
    · exact ih _ h
    · exact ih _ h

theorem invC_customGetitem (msz : Nat) (k : VPath) (s : CSt)
    (h : invC msz s) : invC msz ((customGetitem k s).2) := by
  unfold customGetitem
  cases hg : alGet s.data k with
  | none => exact h
  | some v => exact invC_touchFold msz _ _ h

theorem invC_unlink (msz : Nat) (loc : Comps) (s : CSt)
    (h : invC msz s) : invC msz ((unlink loc s).2) := by
  unfold unlink
  split
  · exact h
  · split <;> exact h

theorem invC_delitemUnlink (msz : Nat) (k : VPath) (v : CEntry) (s1 : CSt)
    (h : invC msz s1) : invC msz ((delitemUnlink k v s1).2) := by
  unfold delitemUnlink
  split
  · split
    · exact h
    · split
      · split
        · exact h
        · exact invC_unlink msz _ _ h
      · exact h
  · exact invC_unlink msz _ _ h

theorem invC_lruDelitemRaw (msz : Nat) (k : VPath) (s : CSt)
    (h : invC msz s) : invC msz ((lruDelitemRaw k s).2) := by
  obtain ⟨hmax, hcur, hle⟩ := h
  unfold lruDelitemRaw
  cases hg : alGet s.data k with
  | none => exact ⟨hmax, hcur, hle⟩
  | some v =>
    have hw := totalW_alErase_some s.data k v hg
    have hgoal : invC msz
        { s with data := alErase s.data k,
                 currsize := s.currsize - (v.weight : Int) } := by
      refine ⟨hmax, ?_, ?_⟩
      · simp only
        omega
      · simp only
        omega
    dsimp only
    split
    · obtain ⟨h1, h2, h3⟩ := hgoal
      exact ⟨h1, h2, h3⟩
    · exact hgoal

theorem invC_customDelitemF (msz fuel : Nat) (k : VPath) (s : CSt)
    (h : invC msz s) : invC msz ((customDelitemF fuel k s).2) := by
  induction fuel generalizing k s with
  | zero => exact h
  | succ n ih =>
    unfold customDelitemF
    cases hg : customGetitem k s with
    | mk r1 s1 =>
      have h1 : invC msz s1 := by
        have := invC_customGetitem msz k s h
        rw [hg] at this
        exact this
      cases r1 with
      | error e => exact h1
      | ok v =>
        dsimp only
        cases h2g : delitemUnlink k v s1 with
        | mk r2 s2 =>
          have h2 : invC msz s2 := by
            have := invC_delitemUnlink msz k v s1 h1
            rw [h2g] at this
            exact this
          cases r2 with
          | error e => exact h2
          | ok u =>
            dsimp only
            by_cases hc : k.comps.dropLast ≠ [] ∧
                (alGet s2.data ⟨k.comps.dropLast, true⟩).isSome = true
            · rw [if_pos hc]
              cases h3g : customDelitemF n ⟨k.comps.dropLast, true⟩ s2 with
              | mk r3 s3 =>
                have h3 : invC msz s3 := by
                  have := ih ⟨k.comps.dropLast, true⟩ s2 h2
                  rw [h3g] at this
                  exact this
                cases r3 with
                | error e => exact h3
                | ok u2 => exact invC_lruDelitemRaw msz _ _ h3
            · rw [if_neg hc]
              exact invC_lruDelitemRaw msz _ _ h2

theorem invC_popitem (msz : Nat) (s : CSt)
    (h : invC msz s) : invC msz ((popitem s).2) := by
  unfold popitem
  cases s.order with
  | nil => exact h
  | cons k t =>
    dsimp only
    cases hg : customGetitem k s with
    | mk r1 s1 =>
      have h1 : invC msz s1 := by
        have := invC_customGetitem msz k s h
        rw [hg] at this
        exact this
      cases r1 with
      | error e => exact h1
      | ok v =>
        dsimp only
        cases hd : customDelitem k s1 with
        | mk r2 s2 =>
          have h2 : invC msz s2 := by
            have := invC_customDelitemF msz (k.comps.length + 1) k s1 h1
            unfold customDelitem at hd
            rw [hd] at this
            exact this
          cases r2 with
          | error e => exact h2
          | ok u => exact h2

theorem invC_popLoop (msz size fuel : Nat) (s : CSt)
    (h : invC msz s) : invC msz ((popLoop size fuel s).2) := by
  induction fuel generalizing s with
  | zero => exact h
  | succ n ih =>
    unfold popLoop
    split
    · exact h
    · cases hp : popitem s with
      | mk r1 s1 =>
        have h1 : invC msz s1 := by
          have := invC_popitem msz s h
          rw [hp] at this
          exact this
        cases r1 with
        | error e => exact h1
        | ok v => exact ih _ h1

/-- When the eviction loop exits normally, the state it leaves satisfies
the loop guard: `currsize + size ≤ maxsize`. -/
theorem popLoop_ok_bound (size fuel : Nat) (s : CSt)
    (h : (popLoop size fuel s).1 = .ok ()) :
    ((popLoop size fuel s).2).currsize + (size : Int) ≤
      (((popLoop size fuel s).2).maxsize : Int) := by
  induction fuel generalizing s with
  | zero => simp [popLoop] at h
  | succ n ih =>
    unfold popLoop at h ⊢
    by_cases hc : s.currsize + (size : Int) ≤ (s.maxsize : Int)
    · rw [if_pos hc] at h ⊢
      exact hc
    · rw [if_neg hc] at h ⊢
      cases hp : popitem s with
      | mk r1 s1 =>
        rw [hp] at h
        cases r1 with
        | error e => simp at h
        | ok v =>
          dsimp only at h ⊢
          exact ih _ h

theorem invC_setitemStore (msz : Nat) (k : VPath) (v : CEntry) (s1 : CSt)
    (hinv : invC msz s1)
    (hbound : s1.currsize + (v.weight : Int) ≤ (msz : Int) ∨
      (∃ old, alGet s1.data k = some old ∧ v.weight ≤ old.weight)) :
    invC msz ((setitemStore k v s1).2) := by
  obtain ⟨hmax, hcur, hle⟩ := hinv
  unfold setitemStore diffSize
  cases hg : alGet s1.data k with
  | some old =>
    have hw := totalW_alSet_some s1.data k v old hg
    have hwle := alGet_weight_le_totalW s1.data k old hg
    refine ⟨hmax, ?_, ?_⟩
    · simp only
      omega
    · simp only
      rcases hbound with hb | ⟨old2, hold2, hvle⟩
      · omega
      · rw [hg] at hold2
        cases hold2
        omega
  | none =>
    have hw := totalW_alSet_none s1.data k v hg
    have hb : s1.currsize + (v.weight : Int) ≤ (msz : Int) := by
      rcases hbound with hb | ⟨old2, hold2, _⟩
      · exact hb
      · rw [hg] at hold2
        cases hold2
    refine ⟨hmax, ?_, ?_⟩
    · simp only
      omega
    · simp only
      omega

theorem invC_cacheSetitemRaw (msz : Nat) (k : VPath) (v : CEntry) (s : CSt)
    (h : invC msz s) : invC msz ((cacheSetitemRaw k v s).2) := by
  unfold cacheSetitemRaw
  by_cases hbig : v.weight > s.maxsize
  · rw [if_pos hbig]
    exact h
  · rw [if_neg hbig]
    have hmaxeq : s.maxsize = msz := h.1
    by_cases hev : needsEvict s.data k v.weight = true
    · rw [if_pos hev]
      cases hp : popLoop v.weight (s.data.length + 1) s with
      | mk r1 s1 =>
        have h1 : invC msz s1 := by
          have := invC_popLoop msz v.weight (s.data.length + 1) s h
          rw [hp] at this
          exact this
        cases r1 with
        | error e => exact h1
        | ok u =>
          dsimp only
          apply invC_setitemStore msz k v s1 h1
          left
          have := popLoop_ok_bound v.weight (s.data.length + 1) s (by rw [hp])
          rw [hp] at this
          simp only at this
          rw [h1.1] at this
          exact this
    · rw [if_neg hev]
      dsimp only
      apply invC_setitemStore msz k v s h
      right
      unfold needsEvict at hev
      cases hg : alGet s.data k with
      | none => rw [hg] at hev; simp at hev
      | some old =>
        refine ⟨old, rfl, ?_⟩
        rw [hg] at hev
        simp at hev
        omega

theorem invC_customSetitem (msz : Nat) (k : VPath) (v : CEntry) (s : CSt)
    (h : invC msz s) : invC msz ((customSetitem k v s).2) := by
  unfold customSetitem
  cases hs : cacheSetitemRaw k v s with
  | mk r1 s1 =>
    have h1 : invC msz s1 := by
      have := invC_cacheSetitemRaw msz k v s h
      rw [hs] at this
      exact this
    cases r1 with
    | error e => exact h1
    | ok u => exact invC_touchFold msz _ _ h1

theorem invC_addDirsAll (msz : Nat) (loc : Comps) (s : CSt)
    (h : invC msz s) : invC msz (addDirsAll loc s) := h

theorem invC_cmPutFile (msz : Nat) (p : VPath) (ts : Nat) (c : Content) (s : CSt)
    (h : invC msz s) : invC msz ((cmPutFile p ts c s).2) := by
  unfold cmPutFile
  dsimp only
  split
  · exact h
  · exact invC_customSetitem msz _ _ _ h

theorem invC_cmPutFolder (msz : Nat) (p : VPath) (ts : Nat) (s : CSt)
    (h : invC msz s) : invC msz ((cmPutFolder p ts s).2) := by
  unfold cmPutFolder
  dsimp only
  exact invC_customSetitem msz _ _ _ h

theorem invC_applyIns (msz : Nat) (i : CacheIns) (s : CSt)
    (h : invC msz s) : invC msz (applyIns i s) := by
  cases i with
  | file p ts c => exact invC_cmPutFile msz p ts c s h
  | folder p ts => exact invC_cmPutFolder msz p ts s h

theorem invC_runInss (msz : Nat) (l : List CacheIns) (s : CSt)
    (h : invC msz s) : invC msz (runInss l s) := by
  induction l generalizing s with
  | nil => exact h
  | cons i t ih => exact ih _ (invC_applyIns msz i s h)

theorem invC_initCSt (msz : Nat) : invC msz (initCSt msz) := by
  refine ⟨rfl, ?_, ?_⟩ <;> simp [initCSt, totalW]

/-! ## Event-trace properties of delete and put -/

/-- Is an event a remote delete? -/
def isDelEv : Ev → Bool
  | .remoteDelete _ => true
  | _ => false

/-- Is an event a cache invalidation? -/
def isInvEv : Ev → Bool
  | .cacheInvalidate _ => true
  | _ => false

/-- The check applied to each event given its predecessor: a remote
delete must be immediately preceded by the cache invalidation of the same
path. -/
def delPairOk (prev e : Ev) : Bool :=
  match e with
  | .remoteDelete x => decide (prev = Ev.cacheInvalidate x)
  | _ => true

def delPrecededAux : Ev → List Ev → Bool
  | _, [] => true
  | prev, e :: t => delPairOk prev e && delPrecededAux e t

/-- Every remote-delete event in the trace is immediately preceded by the
cache invalidation of the same path (in particular none occurs first). -/
def delPreceded : List Ev → Bool
  | [] => true
  | e :: t => !isDelEv e && delPrecededAux e t

theorem delPairOk_of_not_del (prev e : Ev) (h : isDelEv e = false) :
    delPairOk prev e = true := by
  cases e <;> simp [delPairOk, isDelEv] at h ⊢

theorem delPrecededAux_append (A B : List Ev) (prev : Ev) :
    delPrecededAux prev (A ++ B) =
      (delPrecededAux prev A && delPrecededAux (A.getLastD prev) B) := by
  induction A generalizing prev with
  | nil => simp [delPrecededAux]
  | cons a t ih =>
    simp only [List.cons_append, delPrecededAux, List.getLastD_cons, List.append_eq,
      ih a, Bool.and_assoc]

theorem delPreceded_append (A B : List Ev)
    (hA : delPreceded A = true) (hB : delPreceded B = true) :
    delPreceded (A ++ B) = true := by
  cases A with
  | nil => exact hB
  | cons a t =>
    simp only [delPreceded, Bool.and_eq_true] at hA
    simp only [List.cons_append, delPreceded, delPrecededAux_append, Bool.and_eq_true]
    refine ⟨hA.1, hA.2, ?_⟩
    cases B with
    | nil => rfl
    | cons b u =>
      simp only [delPreceded, Bool.and_eq_true] at hB
      simp only [delPrecededAux, Bool.and_eq_true]
      exact ⟨delPairOk_of_not_del _ _ (by simpa using hB.1), hB.2⟩

@[simp] theorem runC_evs {α : Type} (m : CSt → CRes α) (s : PSt) :
    ((runC m s).2).evs = s.evs := rfl

@[simp] theorem emitEv_evs (e : Ev) (s : PSt) :
    (emitEv e s).evs = s.evs ++ [e] := rfl

/-- The wrapper `catchCE` only rewrites the error value; the state passes through. -/
theorem catchCE_state {α : Type} (m : PSt → PRes α) (s : PSt) :
    (catchCE m s).2 = (m s).2 := by
  unfold catchCE
  cases hm : m s with
  | mk r1 s1 =>
    cases r1 with
    | error e =>
      dsimp only
      split <;> rfl
    | ok a => rfl

/-- The trace block of `deleteCoreBody`: the invalidation event,
optionally followed by the remote delete of the same path. -/
theorem deleteCoreBody_evs (full : VPath) (s : PSt) :
    ((deleteCoreBody full s).2).evs = s.evs ++ [Ev.cacheInvalidate full] ∨
    ((deleteCoreBody full s).2).evs =
      s.evs ++ [Ev.cacheInvalidate full, Ev.remoteDelete full] := by
  unfold deleteCoreBody
  cases hr : runC (cmInvalidate full) (emitEv (.cacheInvalidate full) s) with
  | mk r1 s1 =>
    have hevs : s1.evs = s.evs ++ [Ev.cacheInvalidate full] := by
      have h0 := runC_evs (cmInvalidate full) (emitEv (.cacheInvalidate full) s)
      rw [hr] at h0
      simpa using h0
    cases r1 with
    | error e => left; exact hevs
    | ok u =>
      right
      dsimp only
      unfold remoteDeleteObj
      simp [hevs, emitEv]

theorem delPreceded_block (full : VPath) :
    delPreceded [Ev.cacheInvalidate full] = true ∧
    delPreceded [Ev.cacheInvalidate full, Ev.remoteDelete full] = true := by
  constructor <;> simp [delPreceded, delPrecededAux, delPairOk, isDelEv]

/-- The whole trace of `deleteCore` satisfies the invalidate-then-delete
discipline. -/
theorem deleteCore_delta (full : VPath) (s : PSt) :
    ∃ d, ((deleteCore full s).2).evs = s.evs ++ d ∧ delPreceded d = true := by
  unfold deleteCore
  rw [catchCE_state]
  rcases deleteCoreBody_evs full s with h | h
  · exact ⟨_, h, (delPreceded_block full).1⟩
  · exact ⟨_, h, (delPreceded_block full).2⟩

theorem deleteFiles_delta (names : List VPath) (pfx : Comps) (s : PSt) :
    ∃ d, ((deleteFiles pfx names s).2).evs = s.evs ++ d ∧ delPreceded d = true := by
  induction names generalizing s with
  | nil => exact ⟨[], by simp [deleteFiles], rfl⟩
  | cons f t ih =>
    unfold deleteFiles
    cases hr : deleteCore (mkFull pfx f) s with
    | mk r1 s1 =>
      obtain ⟨d1, hd1, hg1⟩ := deleteCore_delta (mkFull pfx f) s
      rw [hr] at hd1
      cases r1 with
      | error e => exact ⟨d1, hd1, hg1⟩
      | ok u =>
        obtain ⟨d2, hd2, hg2⟩ := ih s1
        refine ⟨d1 ++ d2, ?_, delPreceded_append _ _ hg1 hg2⟩
        dsimp only
        rw [hd2, hd1, List.append_assoc]

/-- The full trace of `S3FSProvider.delete` satisfies the
invalidate-then-delete discipline. -/
theorem deleteOp_delta (pre : Comps) (p : VPath) (s : PSt) :
    ∃ d, ((deleteOp pre p s).2).evs = s.evs ++ d ∧ delPreceded d = true := by
  unfold deleteOp
  by_cases hdir : (mkFull pre p).isDir = true
  · rw [if_pos hdir]
    dsimp only
    cases hr : deleteFiles (mkFull pre p).comps
        (listFilesUnder (emitEv (.remoteList (mkFull pre p)) s) (mkFull pre p).comps)
        (emitEv (.remoteList (mkFull pre p)) s) with
    | mk r1 s1 =>
      obtain ⟨d1, hd1, hg1⟩ := deleteFiles_delta
        (listFilesUnder (emitEv (.remoteList (mkFull pre p)) s) (mkFull pre p).comps)
        (mkFull pre p).comps (emitEv (.remoteList (mkFull pre p)) s)
      rw [hr] at hd1
      simp only [emitEv_evs] at hd1
      have hlist : delPreceded ([Ev.remoteList (mkFull pre p)] ++ d1) = true := by
        apply delPreceded_append
        · rfl
        · exact hg1
      cases r1 with
      | error e =>
        refine ⟨[Ev.remoteList (mkFull pre p)] ++ d1, ?_, hlist⟩
        rw [hd1, List.append_assoc]
      | ok u =>
        obtain ⟨d2, hd2, hg2⟩ := deleteCore_delta (mkFull pre p) s1
        refine ⟨[Ev.remoteList (mkFull pre p)] ++ d1 ++ d2, ?_,
          delPreceded_append _ _ hlist hg2⟩
        dsimp only
        rw [hd2, hd1]
        simp [List.append_assoc]
  · rw [if_neg hdir]
    exact deleteCore_delta (mkFull pre p) s

@[simp] theorem remotePutObj_evs (k : VPath) (c : Content) (s : PSt) :
    ((remotePutObj k c s).2).evs = s.evs ++ [Ev.remotePut k] := by
  unfold remotePutObj
  dsimp only
  split <;> rfl

theorem putParents_evs (l : List Comps) (s : PSt) :
    ∃ d, ((putParents l s).2).evs = s.evs ++ d ∧
      d.all (fun e => !isInvEv e) = true := by
  induction l generalizing s with
  | nil => exact ⟨[], by simp [putParents], rfl⟩
  | cons a t ih =>
    unfold putParents
    cases hr : remotePutObj ⟨a, true⟩ [] s with
    | mk r1 s1 =>
      have hevs1 : s1.evs = s.evs ++ [Ev.remotePut ⟨a, true⟩] := by
        have h0 := remotePutObj_evs ⟨a, true⟩ [] s
        rw [hr] at h0
        exact h0
      cases r1 with
      | error e => exact ⟨[Ev.remotePut ⟨a, true⟩], hevs1, by rfl⟩
      | ok u =>
        obtain ⟨d, hd, hall⟩ := ih s1
        refine ⟨Ev.remotePut ⟨a, true⟩ :: d, ?_, ?_⟩
        · dsimp only
          rw [hd, hevs1]
          simp
        · simp only [List.all_cons, Bool.and_eq_true]
          exact ⟨rfl, hall⟩

/-- The operation `put` never emits a cache invalidation. -/
theorem putOp_no_invalidate (pre : Comps) (p : VPath) (c : Content) (s : PSt) :
    ∃ d, ((putOp pre p c s).2).evs = s.evs ++ d ∧
      d.all (fun e => !isInvEv e) = true := by
  unfold putOp
  dsimp only
  split
  · exact ⟨[], by simp, rfl⟩
  · unfold putFileRemote
    rw [catchCE_state]
    unfold putFileBody
    cases hr : remotePutObj (mkFull pre p) c s with
    | mk r1 s1 =>
      have hevs1 : s1.evs = s.evs ++ [Ev.remotePut (mkFull pre p)] := by
        have h0 := remotePutObj_evs (mkFull pre p) c s
        rw [hr] at h0
        exact h0
      cases r1 with
      | error e => exact ⟨[Ev.remotePut (mkFull pre p)], hevs1, by rfl⟩
      | ok u =>
        obtain ⟨d, hd, hall⟩ := putParents_evs
          ((ancChain (mkFull pre p).comps).filter (fun a => a ≠ [])) s1
        refine ⟨Ev.remotePut (mkFull pre p) :: d, ?_, ?_⟩
        · dsimp only
          rw [hd, hevs1]
          simp
        · simp only [List.all_cons, Bool.and_eq_true]
          exact ⟨rfl, hall⟩

/-! ## Error normalisation -/

theorem catchCE_no_clientError {α : Type} (m : PSt → PRes α) (s : PSt) :
    (catchCE m s).1 ≠ .error .clientError := by
  unfold catchCE
  cases hm : m s with
  | mk r1 s1 =>
    cases r1 with
    | error e =>
      dsimp only
      split
      · simp
      · simp only [ne_eq, Except.error.injEq]
        intro he
        simp_all
    | ok a => simp

/-- The operation `get_fd` never surfaces a raw `ClientError`. -/
theorem getFd_no_clientError (pre : Comps) (p : VPath) (t : Option Nat) (s : PSt) :
    (getFd pre p t s).1 ≠ .error .clientError := by
  unfold getFd
  dsimp only
  split
  · simp
  · exact catchCE_no_clientError _ s

theorem putParents_ok_or_ce (l : List Comps) (s : PSt) :
    (putParents l s).1 = .ok () ∨ (putParents l s).1 = .error .clientError := by
  induction l generalizing s with
  | nil => left; rfl
  | cons a t ih =>
    unfold putParents
    cases hr : remotePutObj ⟨a, true⟩ [] s with
    | mk r1 s1 =>
      have hr1 : r1 = .ok () ∨ r1 = .error .clientError := by
        unfold remotePutObj at hr
        dsimp only at hr
        split at hr
        · right
          exact ((Prod.mk.injEq _ _ _ _).mp hr).1.symm
        · left
          exact ((Prod.mk.injEq _ _ _ _).mp hr).1.symm
      cases r1 with
      | error e =>
        right
        rcases hr1 with h | h
        · cases h
        · simpa using h
      | ok u => exact ih s1

theorem catchCE_of_ok_or_ce {α : Type} (m : PSt → PRes α) (s : PSt) (a : α)
    (h : (m s).1 = .ok a ∨ (m s).1 = .error .clientError) :
    (catchCE m s).1 = .ok a ∨ (catchCE m s).1 = .error .notFound := by
  unfold catchCE
  cases hm : m s with
  | mk r1 s1 =>
    rw [hm] at h
    cases r1 with
    | error e =>
      right
      dsimp only at h ⊢
      rcases h with h | h
      · cases h
      · have : e = .clientError := by simpa using h
        rw [this]
        simp
    | ok b =>
      left
      dsimp only at h ⊢
      rcases h with h | h
      · simpa using h
      · cases h

theorem putFileBody_ok_or_ce (full : VPath) (c : Content) (s : PSt) :
    (putFileBody full c s).1 = .ok () ∨ (putFileBody full c s).1 = .error .clientError := by
  unfold putFileBody
  cases hr : remotePutObj full c s with
  | mk r1 s1 =>
    have hr1 : r1 = .ok () ∨ r1 = .error .clientError := by
      unfold remotePutObj at hr
      dsimp only at hr
      split at hr
      · right
        exact ((Prod.mk.injEq _ _ _ _).mp hr).1.symm
      · left
        exact ((Prod.mk.injEq _ _ _ _).mp hr).1.symm
    cases r1 with
    | error e =>
      right
      rcases hr1 with h | h
      · cases h
      · simpa using h
    | ok u => exact putParents_ok_or_ce _ s1

/-- The operation `put` either succeeds or fails with `NotFound`. -/
theorem putOp_ok_or_notFound (pre : Comps) (p : VPath) (c : Content) (s : PSt) :
    (putOp pre p c s).1 = .ok () ∨ (putOp pre p c s).1 = .error .notFound := by
  unfold putOp
  dsimp only
  split
  · right; rfl
  · exact catchCE_of_ok_or_ce _ _ () (putFileBody_ok_or_ce (mkFull pre p) c s)

/-! ## The touch phase of setitem, and the copy_from fast path -/

theorem touch_phase_order (s1 : CSt) (k : VPath) :
    (touchFold (updateOrd k s1) (ancChain k.comps)).order =
      multiErase s1.order (k :: presentMarkers s1 k.comps) ++
        (k :: presentMarkers s1 k.comps) := by
  have h1 : touchFold (updateOrd k s1) (ancChain k.comps) =
      touchKeys s1 (k :: presentMarkers s1 k.comps) := by
    rw [touchFold_eq_touchKeys]
    simp only [touchKeys, updateOrd_data]
    rfl
  rw [h1, touchKeys_order _ _ (nodup_key_markers s1 k)]

theorem touch_phase_data (s1 : CSt) (k : VPath) :
    (touchFold (updateOrd k s1) (ancChain k.comps)).data = s1.data := by
  rw [touchFold_data]
  rfl

/-- When the raw store succeeds, `CustomLRUCache.__setitem__` leaves the
stored key followed by its present ancestor markers as the most recent
tail of the recency order. -/
theorem customSetitem_suffix (k : VPath) (v : CEntry) (s : CSt)
    (h : (cacheSetitemRaw k v s).1 = .ok ()) :
    (k :: presentMarkers ((customSetitem k v s).2) k.comps) <:+
      ((customSetitem k v s).2).order := by
  unfold customSetitem
  cases hs : cacheSetitemRaw k v s with
  | mk r1 s1 =>
    rw [hs] at h
    dsimp only at h
    subst h
    dsimp only
    have hdata : presentMarkers (touchFold (updateOrd k s1) (ancChain k.comps)) k.comps =
        presentMarkers s1 k.comps := by
      unfold presentMarkers
      rw [touch_phase_data]
    rw [hdata, touch_phase_order]
    exact ⟨multiErase s1.order (k :: presentMarkers s1 k.comps), rfl⟩

@[simp] theorem pyNow_evs (s : PSt) : ((pyNow s).2).evs = s.evs := by
  unfold pyNow
  cases s.clock <;> rfl

@[simp] theorem pyNow_cache (s : PSt) : ((pyNow s).2).cache = s.cache := by
  unfold pyNow
  cases s.clock <;> rfl

@[simp] theorem emitEv_cache (e : Ev) (s : PSt) : (emitEv e s).cache = s.cache := rfl

@[simp] theorem recursiveOverwrite_evs (loc dd : Comps) (s : PSt) :
    (recursiveOverwrite loc dd s).evs = s.evs := rfl

/-- The discarded folder timestamp probe of `copy_from`: whether or not
the folder key exists remotely, the probe just logs a HEAD request. -/
theorem catchAll_headLM (full : VPath) (s : PSt) :
    catchAll (remoteHeadLM full) s = (.ok (), emitEv (.remoteHead full) s) := by
  unfold catchAll remoteHeadLM
  dsimp only
  cases hg : alGet (emitEv (.remoteHead full) s).remote full <;> rfl

theorem mkFull_isDir_of_dir (pre : Comps) (p : VPath) (hdir : p.isDir = true) :
    (mkFull pre p).isDir = true := by
  unfold mkFull
  split
  · rename_i hcond
    rw [hdir] at hcond
    cases hcond.2
  · exact hdir

/-- The whole-subtree fast path of `copy_from`: when the clock reading
taken at the start of the call does not exceed the freshness timestamp of
the cached directory marker for the source folder, the call copies the
cached subtree and performs no remote list or get. -/
theorem copyFrom_fastpath (s : PSt) (pre : Comps) (p : VPath) (dd : Comps)
    (lm : Nat) (rest : List Nat) (e : CEntry)
    (hdir : p.isDir = true)
    (hclock : s.clock = lm :: rest)
    (hent : alGet s.cache.data (mkFull pre p) = some e)
    (hfresh : lm ≤ e.ts) :
    (copyFrom pre p dd s).1 = .ok () ∧
    (copyFrom pre p dd s).2.evs = s.evs ++ [Ev.remoteHead (mkFull pre p)] := by
  have hfull : (mkFull pre p).isDir = true := mkFull_isDir_of_dir pre p hdir
  have hcond : ¬((mkFull pre p).comps ≠ [] ∧ (mkFull pre p).isDir = false) := by
    rw [hfull]
    rintro ⟨_, h2⟩
    cases h2
  have hnow : pyNow s = (lm, { s with clock := rest }) := by
    unfold pyNow
    rw [hclock]
  have hcm : runC (cmGet (mkFull pre p) lm)
      (emitEv (.remoteHead (mkFull pre p)) { s with clock := rest }) =
      ((.ok (some e.diskLoc) : Except PyErr (Option Comps)),
        { emitEv (.remoteHead (mkFull pre p)) { s with clock := rest } with
          cache := touchFold (updateOrd (mkFull pre p) s.cache)
            (ancChain (mkFull pre p).comps) }) := by
    unfold runC
    simp [cmGet, customGetitem, hent, hfresh]
  unfold copyFrom
  rw [if_neg hcond, hnow]
  dsimp only
  rw [catchAll_headLM, hcm]
  dsimp only
  constructor
  · rfl
  · rw [recursiveOverwrite_evs, pyNow_evs]
    simp [emitEv]

/-! ## Claim theorems -/

/-- Is a result exactly the given error? -/
def resIsErr {α : Type} (r : Except PyErr α) (e : PyErr) : Bool :=
  match r with
  | .error x => x = e
  | .ok _ => false

/-- Is an event a remote get? -/
def isGetEv : Ev → Bool
  | .remoteGet _ => true
  | _ => false

/-- C1 scenario: a cached file `a/b/c.txt` with its directory markers
`a/b/` and `a/`, built through the cache's own operations. -/
def c1p : VPath := ⟨["a", "b", "c.txt"], false⟩

def c1mab : VPath := ⟨["a", "b"], true⟩

def c1ma : VPath := ⟨["a"], true⟩

def c1s3 : CSt :=
  (cmPutFolder c1ma 6 ((cmPutFolder c1mab 6
    ((cmPutFile c1p 5 [9, 9] (initCSt 1000)).2)).2)).2

/-- C1: cascade invalidation is broken in the code.  Invalidating
`a/b/c.txt` while the markers `a/b/` and `a/` are cached unlinks the
on-disk file, but then crashes: emptying `a/b` makes
`CustomLRUCache.__delitem__` call `os.unlink` on the directory
(`IsADirectoryError`; with a non-empty directory it instead reaches
`super().__delitem__` with the trailing-"/" stripped from the key, a
`KeyError`).  No cache entry is removed: the file entry and both markers
survive, with the file entry now pointing at a deleted file.  The claim
says all three entries are removed and empty directories are cleaned
up. -/
theorem c1_cascade_invalidation_bug :
    resIsErr (cmInvalidate c1p c1s3).1 .isADirectoryError = true ∧
    (alGet ((cmInvalidate c1p c1s3).2).data c1p).isSome = true ∧
    (alGet ((cmInvalidate c1p c1s3).2).data c1mab).isSome = true ∧
    (alGet ((cmInvalidate c1p c1s3).2).data c1ma).isSome = true ∧
    alGet ((cmInvalidate c1p c1s3).2).files c1p.comps = none := by
  decide

/-- C2 scenario: empty cache, one remote object with modification time 5,
and an explicit needed timestamp 9 in the future of it. -/
def c2p : VPath := ⟨["f"], false⟩

def c2s : PSt :=
  { cache := initCSt 1000, remote := [(c2p, ⟨5, [2, 3]⟩)],
    putFail := [], clock := [], evs := [], dest := [] }

/-- C2: on a cache miss with an explicit timestamp newer than the remote
object's modification time, `get_fd` performs the remote fetch (exactly
one GET) and stores the result tagged with the object's modification
time, but then re-consults the cache with the *requested* timestamp,
gets `None`, and crashes on `open(None, "rb")` (`TypeError`) instead of
returning the newly cached content, as the claim (and spec §4.2)
requires. -/
theorem c2_freshness_miss_bug :
    resIsErr (getFd [] c2p (some 9) c2s).1 .typeError = true ∧
    ((getFd [] c2p (some 9) c2s).2).evs.countP isGetEv = 1 ∧
    alGet ((getFd [] c2p (some 9) c2s).2).cache.data c2p = some ⟨5, ["f"], 2⟩ := by
  decide

/-- C3 scenario: one remote file `d/x`, and a clock that advances between
the two `copy_from` calls (10 for the first call, 11 for the second). -/
def c3cexS : PSt :=
  { cache := initCSt 1000, remote := [(⟨["d", "x"], false⟩, ⟨3, [7]⟩)],
    putFail := [], clock := [10, 10, 11, 11], evs := [], dest := [] }

def c3cexS1 : PSt := (copyFrom [] ⟨["d"], true⟩ ["dd"] c3cexS).2

/-- C3 counterexample: after the first `copy_from` populates the folder
via per-file reconciliation and registers the directory marker, a second
`copy_from` of the same folder does NOT take the fast path: the needed
timestamp is `datetime.now()` (the probed remote timestamp is discarded),
which exceeds the marker's registered start time as soon as the clock has
advanced, so the second call issues a remote list — refuting the claim
that it issues no remote list/get calls. -/
theorem c3_counterexample :
    (alGet c3cexS1.cache.data ⟨["d"], true⟩).isSome = true ∧
    (evDelta c3cexS1 ((copyFrom [] ⟨["d"], true⟩ ["dd"] c3cexS1).2)).countP
      isListGetEv = 1 := by
  decide

/-- C3 (amended): the second copy takes the whole-subtree fast path and
issues no remote list or get calls exactly when the `datetime.now()`
reading taken at that call does not exceed the registered marker
timestamp (the first operation's start time); with an advancing clock the
call falls back to per-file reconciliation and re-issues a remote
list. -/
theorem c3_roundtrip_amended (s : PSt) (pre : Comps) (p : VPath) (dd : Comps)
    (lm : Nat) (rest : List Nat) (e : CEntry)
    (hdir : p.isDir = true)
    (hclock : s.clock = lm :: rest)
    (hent : alGet s.cache.data (mkFull pre p) = some e)
    (hfresh : lm ≤ e.ts) :
    (copyFrom pre p dd s).1 = .ok () ∧
    (evDelta s ((copyFrom pre p dd s).2)).countP isListGetEv = 0 := by
  obtain ⟨h1, h2⟩ := copyFrom_fastpath s pre p dd lm rest e hdir hclock hent hfresh
  refine ⟨h1, ?_⟩
  unfold evDelta
  rw [h2, List.drop_left]
  rfl

/-- C3 witness state: a fresh directory marker for `d/` and a clock that
has not advanced past its timestamp. -/
def c3wS : PSt :=
  { cache := { maxsize := 1000, data := [(⟨["d"], true⟩, ⟨5, ["d"], 0⟩)],
               order := [⟨["d"], true⟩], currsize := 0,
               dirs := [[], ["d"]], files := [] },
    remote := [], putFail := [], clock := [5], evs := [], dest := [] }

theorem c3_roundtrip_witness :
    (⟨["d"], true⟩ : VPath).isDir = true ∧ c3wS.clock = 5 :: [] ∧
    alGet c3wS.cache.data (mkFull [] ⟨["d"], true⟩) = some ⟨5, ["d"], 0⟩ ∧
    5 ≤ (5 : Nat) ∧
    ((copyFrom [] ⟨["d"], true⟩ ["dd"] c3wS).1 = .ok () ∧
      (evDelta c3wS ((copyFrom [] ⟨["d"], true⟩ ["dd"] c3wS).2)).countP
        isListGetEv = 0) :=
  ⟨rfl, rfl, rfl, by decide,
    c3_roundtrip_amended c3wS [] ⟨["d"], true⟩ ["dd"] 5 [] ⟨5, ["d"], 0⟩
      rfl rfl rfl (by decide)⟩

/-- C4: a directory-marker entry present in the cache is never removed by
any sequence of insertions, in particular never by the capacity-eviction
loop that an insertion triggers: eviction can only ever delete a key
without the trailing "/" (the custom delete strips it before the raw
deletion), so zero-weight marker entries are immune to it. -/
theorem c4_marker_eviction_immunity (l : List CacheIns) (s : CSt) (m : VPath)
    (hm : m.isDir = true) (h : keyLive s m) : keyLive (runInss l s) m := by
  induction l generalizing s with
  | nil => exact h
  | cons i t ih => exact ih _ (keyLive_applyIns i s m hm h)

/-- C4 witness state: a marker `m/` and a cached file in a tiny cache, the
marker freshly touched; inserting a larger file evicts the old file but
leaves the marker in place. -/
def c4wS : CSt :=
  (cmGet ⟨["m"], true⟩ 0
    ((cmPutFile ⟨["f1"], false⟩ 1 [1, 1]
      ((cmPutFolder ⟨["m"], true⟩ 1 (initCSt 3)).2)).2)).2

instance keyLiveDecidable (s : CSt) (m : VPath) : Decidable (keyLive s m) :=
  inferInstanceAs (Decidable ((alGet s.data m).isSome = true))

theorem c4_marker_eviction_immunity_witness :
    (⟨["m"], true⟩ : VPath).isDir = true ∧ keyLive c4wS ⟨["m"], true⟩ ∧
    keyLive (runInss [CacheIns.file ⟨["f2"], false⟩ 2 [2, 2]] c4wS)
      ⟨["m"], true⟩ :=
  ⟨rfl, by decide,
    c4_marker_eviction_immunity [CacheIns.file ⟨["f2"], false⟩ 2 [2, 2]] c4wS
      ⟨["m"], true⟩ rfl (by decide)⟩

/-- C5 scenario: a single remote file `x` and an empty cache. -/
def c5cexP : VPath := ⟨["x"], false⟩

def c5cexS : PSt :=
  { cache := initCSt 1000, remote := [(c5cexP, ⟨1, [1]⟩)],
    putFail := [], clock := [], evs := [], dest := [] }

/-- C5 counterexample: deleting `x` produces the trace
`[cacheInvalidate x, remoteDelete x]` — the cache invalidation comes
FIRST, so the claim that the operation is applied to the remote store
first and the cache invalidated only afterwards fails: the invalidation
at index 0 is preceded by no remote delete. -/
theorem c5_counterexample :
    evDelta c5cexS ((deleteOp [] c5cexP c5cexS).2) =
      [Ev.cacheInvalidate c5cexP, Ev.remoteDelete c5cexP] ∧
    ¬ (∀ i x, (evDelta c5cexS ((deleteOp [] c5cexP c5cexS).2)).get? i =
          some (Ev.cacheInvalidate x) →
        ∃ j, j < i ∧ (evDelta c5cexS ((deleteOp [] c5cexP c5cexS).2)).get? j =
          some (Ev.remoteDelete x)) := by
  constructor
  · decide
  · intro hcl
    obtain ⟨j, hj, _⟩ := hcl 0 c5cexP (by decide)
    exact absurd hj (Nat.not_lt_zero j)

/-- C5 (amended): the order is the reverse of the claim for deletes — in
every trace of `delete`, each remote deletion is immediately preceded by
the cache invalidation of the same path (the invalidation happens first;
if the invalidation raises, the remote delete never happens) — and writes
(`put`) never invalidate the cache at all. -/
theorem c5_ordering_amended (s : PSt) (pre : Comps) (p : VPath) :
    delPreceded (evDelta s ((deleteOp pre p s).2)) = true ∧
    (∀ c : Content,
      (evDelta s ((putOp pre p c s).2)).all (fun e => !isInvEv e) = true) := by
  constructor
  · obtain ⟨d, hd, hg⟩ := deleteOp_delta pre p s
    unfold evDelta
    rw [hd, List.drop_left]
    exact hg
  · intro c
    obtain ⟨d, hd, hall⟩ := putOp_no_invalidate pre p c s
    unfold evDelta
    rw [hd, List.drop_left]
    exact hall

/-- C6 scenario for the counterexample: a cold directory marker `a/` and
a more recently used unrelated file `z`. -/
def c6cexS : CSt :=
  { maxsize := 1000,
    data := [(⟨["a"], true⟩, ⟨1, ["a"], 0⟩), (⟨["z"], false⟩, ⟨1, ["z"], 1⟩)],
    order := [⟨["a"], true⟩, ⟨["z"], false⟩],
    currsize := 1, dirs := [[], ["a"]], files := [(["z"], [5])] }

/-- C6 counterexample: a cache lookup of `a/b.txt`, a path with NO entry,
is a no-op — the state (in particular the recency order) is unchanged and
the present ancestor marker `a/` is not moved to most-recently-used (the
untouched `z` stays more recent).  This refutes the claim for *every*
lookup: only a lookup that finds an entry touches the ancestors. -/
theorem c6_counterexample :
    (alGet c6cexS.data ⟨["a"], true⟩).isSome = true ∧
    (cmGet ⟨["a", "b.txt"], false⟩ 0 c6cexS).2 = c6cexS ∧
    ((cmGet ⟨["a", "b.txt"], false⟩ 0 c6cexS).2).order.getLast? ≠
      some ⟨["a"], true⟩ := by
  decide

theorem customSetitem_ok (k : VPath) (v : CEntry) (s : CSt)
    (h : (customSetitem k v s).1 = .ok ()) :
    (cacheSetitemRaw k v s).1 = .ok () := by
  revert h
  unfold customSetitem
  cases hs : cacheSetitemRaw k v s with
  | mk r1 s1 =>
    cases r1 with
    | error e =>
      intro h
      dsimp only at h
      cases h
    | ok u =>
      intro _
      cases u
      rfl

/-- C6 (amended): every cache lookup that finds an entry for the path
(fresh or stale) and every completed insertion leaves the path followed
by all its present ancestor directory markers (immediate parent first,
root last) as the most-recently-used tail of the recency order; a lookup
of a path with no entry touches nothing. -/
theorem c6_touch_amended :
    (∀ (s : CSt) (p : VPath) (t : Nat) (v : CEntry),
      alGet s.data p = some v →
      (p :: presentMarkers s p.comps) <:+ ((cmGet p t s).2).order) ∧
    (∀ (s : CSt) (p : VPath) (ts : Nat) (c : Content),
      (cmPutFile p ts c s).1 = .ok () →
      (p :: presentMarkers ((cmPutFile p ts c s).2) p.comps) <:+
        ((cmPutFile p ts c s).2).order) ∧
    (∀ (s : CSt) (p : VPath) (ts : Nat),
      (cmPutFolder p ts s).1 = .ok () →
      (p :: presentMarkers ((cmPutFolder p ts s).2) p.comps) <:+
        ((cmPutFolder p ts s).2).order) := by
  refine ⟨fun s p t v h => cmGet_suffix s p t v h, ?_, ?_⟩
  · intro s p ts c h
    revert h
    unfold cmPutFile
    dsimp only
    split
    · intro h
      cases h
    · intro h
      exact customSetitem_suffix p ⟨ts, p.comps, c.length⟩ _
        (customSetitem_ok p ⟨ts, p.comps, c.length⟩ _ h)
  · intro s p ts h
    revert h
    unfold cmPutFolder
    dsimp only
    intro h
    exact customSetitem_suffix p ⟨ts, p.comps, 0⟩ _
      (customSetitem_ok p ⟨ts, p.comps, 0⟩ _ h)

/-- C6 witness state: entries at `a/` and `a/f`, plus an unrelated `z`. -/
def c6wS : CSt :=
  { maxsize := 1000,
    data := [(⟨["a"], true⟩, ⟨1, ["a"], 0⟩),
             (⟨["a", "f"], false⟩, ⟨5, ["a", "f"], 1⟩),
             (⟨["z"], false⟩, ⟨1, ["z"], 1⟩)],
    order := [⟨["a", "f"], false⟩, ⟨["a"], true⟩, ⟨["z"], false⟩],
    currsize := 2, dirs := [[], ["a"]],
    files := [(["a", "f"], [5]), (["z"], [6])] }

theorem c6_touch_amended_witness :
    alGet c6wS.data ⟨["a", "f"], false⟩ = some ⟨5, ["a", "f"], 1⟩ ∧
    ((⟨["a", "f"], false⟩ : VPath) ::
        presentMarkers c6wS (["a", "f"] : Comps)) <:+
      ((cmGet ⟨["a", "f"], false⟩ 9 c6wS).2).order :=
  ⟨rfl, c6_touch_amended.1 c6wS ⟨["a", "f"], false⟩ 9 ⟨5, ["a", "f"], 1⟩ rfl⟩

/-- C7: for every configured maximum and every sequence of insertions
starting from a fresh cache, the total weight of the cached entries
(directory markers weigh zero, so this is the total weight of the file
entries) never exceeds the maximum after each operation — including
operations that raise partway, whose partial effects only shrink the
total. -/
theorem c7_capacity_bound (msz : Nat) (l : List CacheIns) :
    totalW ((runInss l (initCSt msz)).data) ≤ msz :=
  ((invC_runInss msz l (initCSt msz) (invC_initCSt msz)).2).2

/-- C8 scenario: only the directory marker `a/` is cached (its on-disk
directory exists and is empty); `a/b.txt` has no entry. -/
def c8s : CSt := (cmPutFolder ⟨["a"], true⟩ 6 (initCSt 1000)).2

/-- C8: orphan invalidation is broken in the code.  Invalidating the
uncached `a/b.txt` correctly recurses to the parent marker `a/`, but
deleting that marker crashes — `os.unlink` is called on the (empty)
directory (`IsADirectoryError`) — and the marker is NOT removed.  The
claim says the parent marker is removed and the chain continues
upward. -/
theorem c8_orphan_invalidation_bug :
    resIsErr (cmInvalidate ⟨["a", "b.txt"], false⟩ c8s).1 .isADirectoryError = true ∧
    (alGet ((cmInvalidate ⟨["a", "b.txt"], false⟩ c8s).2).data
      ⟨["a"], true⟩).isSome = true := by
  decide

/-- C9 scenario for the counterexample: empty cache, a remote object with
modification time 4, and an explicit needed timestamp 8. -/
def c9cexP : VPath := ⟨["g"], false⟩

def c9cexS : PSt :=
  { cache := initCSt 1000, remote := [(c9cexP, ⟨4, [1]⟩)],
    putFail := [], clock := [], evs := [], dest := [] }

/-- C9 counterexample: `get_fd` with an explicit timestamp newer than the
remote object's modification time escapes with a `TypeError`
(`open(None, "rb")`), which is not `NotFound` — so `NotFound` is not the
only error the fetcher's public operations can surface. -/
theorem c9_counterexample :
    resIsErr (getFd [] c9cexP (some 8) c9cexS).1 .typeError = true ∧
    PyErr.typeError ≠ PyErr.notFound := by
  decide

/-- C9 (amended): remote-collaborator failures never leak — `get_fd`
never surfaces a raw `ClientError` (every one is normalised to
`NotFound`), `put` always either succeeds or fails with `NotFound`, and a
trailing-"/" path given to `get_fd` fails with `NotFound`; but `get_fd`
can additionally escape with an internal error (such as the `TypeError`
of the counterexample, or a cache eviction-cascade error), so `NotFound`
is not the only surfaced error on every input. -/
theorem c9_errors_amended (s : PSt) (pre : Comps) (p : VPath) (t : Option Nat)
    (c : Content) :
    (getFd pre p t s).1 ≠ .error .clientError ∧
    ((putOp pre p c s).1 = .ok () ∨ (putOp pre p c s).1 = .error .notFound) ∧
    ((mkFull pre p).isDir = true → (getFd pre p t s).1 = .error .notFound) := by
  refine ⟨getFd_no_clientError pre p t s, putOp_ok_or_notFound pre p c s, ?_⟩
  intro hdir
  unfold getFd
  dsimp only
  rw [if_pos hdir]

/-- C9 witness state. -/
def c9wS : PSt :=
  { cache := initCSt 1000, remote := [], putFail := [], clock := [],
    evs := [], dest := [] }

theorem c9_errors_amended_witness :
    (mkFull [] ⟨["q"], true⟩).isDir = true ∧
    (getFd [] ⟨["q"], true⟩ none c9wS).1 = .error .notFound ∧
    ((putOp [] ⟨["q"], true⟩ [1] c9wS).1 = .ok () ∨
      (putOp [] ⟨["q"], true⟩ [1] c9wS).1 = .error .notFound) ∧
    (getFd [] ⟨["q"], true⟩ none c9wS).1 ≠ .error .clientError :=
  ⟨rfl,
    (c9_errors_amended c9wS [] ⟨["q"], true⟩ none [1]).2.2 rfl,
    (c9_errors_amended c9wS [] ⟨["q"], true⟩ none [1]).2.1,
    (c9_errors_amended c9wS [] ⟨["q"], true⟩ none [1]).1⟩

/-- C10: a lookup of a cached but stale entry (needed timestamp beyond
the entry's freshness) reports absent (`None`) yet has exactly the same
effect on the cache as a successful lookup: the state equals that of a
fresh lookup of the same path, and the entry together with every present
ancestor directory marker is moved to the most-recently-used tail of the
eviction order. -/
theorem c10_stale_lookup_access (s : CSt) (p : VPath) (t : Nat) (v : CEntry)
    (h : alGet s.data p = some v) (hstale : v.ts < t) :
    (cmGet p t s).1 = .ok none ∧
    (cmGet p t s).2 = (cmGet p v.ts s).2 ∧
    (p :: presentMarkers s p.comps) <:+ ((cmGet p t s).2).order := by
  have hnle : ¬ (t ≤ v.ts) := by omega
  refine ⟨?_, ?_, cmGet_suffix s p t v h⟩
  · simp [cmGet, customGetitem, h, hnle]
  · simp [cmGet, customGetitem, h]

/-- C10 witness state: entries at `a/` and `a/f` (freshness 5), plus an
unrelated `z`; the lookup asks for freshness 9. -/
def c10wS : CSt :=
  { maxsize := 1000,
    data := [(⟨["a"], true⟩, ⟨1, ["a"], 0⟩),
             (⟨["a", "f"], false⟩, ⟨5, ["a", "f"], 1⟩),
             (⟨["z"], false⟩, ⟨1, ["z"], 1⟩)],
    order := [⟨["a"], true⟩, ⟨["a", "f"], false⟩, ⟨["z"], false⟩],
    currsize := 2, dirs := [[], ["a"]],
    files := [(["a", "f"], [5]), (["z"], [6])] }

theorem c10_stale_lookup_access_witness :
    alGet c10wS.data ⟨["a", "f"], false⟩ = some ⟨5, ["a", "f"], 1⟩ ∧
    (5 : Nat) < 9 ∧
    ((cmGet ⟨["a", "f"], false⟩ 9 c10wS).1 = .ok none ∧
      (cmGet ⟨["a", "f"], false⟩ 9 c10wS).2 = (cmGet ⟨["a", "f"], false⟩ 5 c10wS).2 ∧
      ((⟨["a", "f"], false⟩ : VPath) ::
          presentMarkers c10wS (["a", "f"] : Comps)) <:+
        ((cmGet ⟨["a", "f"], false⟩ 9 c10wS).2).order) :=
  ⟨rfl, by decide,
    c10_stale_lookup_access c10wS ⟨["a", "f"], false⟩ 9 ⟨5, ["a", "f"], 1⟩
      rfl (by decide)⟩
